/-
Verification of the audio-reactive Julia fractal renderer
(`app/fractals.py`, `app/audio_features.py`).

The numerical code is embedded shallowly over the real and complex
numbers: each Python function that the claims mention is translated
into a Lean definition of the same shape, and the claimed properties
are proved (or refuted) about those definitions.
-/
import Mathlib

noncomputable section

open Real Complex Filter

/-! ## Escape-time kernel (`julia_escape_smooth` and the fallback inside `julia`)

A pixel trajectory is fully local, so both kernels are embedded per pixel.
`z` is a complex number; the Python code carries `(zr, zi)` pairs.
-/

/-- The polar-form power step `z ↦ |z|^p · exp(i·p·arg z) + c`, shared text of
both kernels (`fractals.py` lines 431-441 and 525-530):
`mag = sqrt(zr*zr+zi*zi)`, `arg = arctan2(zi, zr)`, `new_mag = mag ** p`,
`new_arg = p * arg`, back to rectangular, then add `c`. -/
def polarStep (p : ℝ) (c z : ℂ) : ℂ :=
  ((Complex.abs z ^ p : ℝ) : ℂ) * Complex.exp (((p * Complex.arg z : ℝ) : ℂ) * Complex.I) + c

/-- One iteration step of the numba kernel `julia_escape_smooth`
(`fractals.py` lines 427-441): if `mag2 < 1e-12` the point is reset to `c`,
otherwise the polar-form step is taken.  There is no dispatch on `p`. -/
def numbaStep (p : ℝ) (c z : ℂ) : ℂ :=
  if Complex.normSq z < 1e-12 then c else polarStep p c z

/-- One iteration step of the pure-NumPy fallback inside `julia`
(`fractals.py` lines 519-530): direct multiplication when
`abs(power - 2.0) < 1e-6`, polar form otherwise. -/
def fallbackStep (p : ℝ) (c z : ℂ) : ℂ :=
  if |p - 2| < 1e-6 then z * z + c else polarStep p c z

/-- Smooth iteration count computed by `julia_escape_smooth` on escape at loop
index `k` with escaping point `z` (`fractals.py` lines 446-452):
`mag2 = max(mag2, 1e-12)`, `log_mag = 0.5*log(mag2)`, and
`nu = k + 1 - log(log_mag)/log 2` guarded by `log_mag > 1e-12`. -/
def smoothNu (k : ℕ) (z : ℂ) : ℝ :=
  if 1e-12 < 0.5 * Real.log (max (Complex.normSq z) 1e-12) then
    (k : ℝ) + 1 -
      Real.log (0.5 * Real.log (max (Complex.normSq z) 1e-12)) / Real.log 2
  else (k : ℝ)

/-- Smooth iteration count computed by the fallback path on escape at loop
index `k` (`fractals.py` lines 543-545): `z_abs = max(|z|, 1e-12)` and
`nu = k + 1 - log(log(z_abs))/log 2`. -/
def fallbackNu (k : ℕ) (z : ℂ) : ℝ :=
  (k : ℝ) + 1 - Real.log (Real.log (max (Complex.abs z) 1e-12)) / Real.log 2

/-- The per-pixel iteration loop of `julia_escape_smooth`
(`fractals.py` lines 423-454), with `fuel` remaining iterations and `k` the
current loop index.  Returns `(nu, alive)`: a pixel that never satisfies
`mag2 > 4` within the budget keeps `nu = 0` and `alive = true`. -/
def numbaLoop (p : ℝ) (c : ℂ) : ℕ → ℕ → ℂ → ℝ × Bool
  | 0, _, _ => (0, true)
  | fuel + 1, k, z =>
    let zn := numbaStep p c z
    if 4 < Complex.normSq zn then (smoothNu k zn, false)
    else numbaLoop p c fuel (k + 1) zn

/-- The numba kernel `julia_escape_smooth` restricted to one pixel: run the loop for
`max_iter` iterations starting at loop index 0. -/
def numbaPixel (p : ℝ) (c : ℂ) (maxIter : ℕ) (z0 : ℂ) : ℝ × Bool :=
  numbaLoop p c maxIter 0 z0

/-- The per-pixel iteration loop of the fallback path inside `julia`
(`fractals.py` lines 519-545).  The array code freezes a pixel at the first
iteration `i` with `mag2 > 4`, records `it = i` and the escaping `Z`, and
afterwards sets `nu = it + 1 - log(log(max(|z|,1e-12)))/log 2`; alive pixels
keep `nu = 0`. -/
def fallbackLoop (p : ℝ) (c : ℂ) : ℕ → ℕ → ℂ → ℝ × Bool
  | 0, _, _ => (0, true)
  | fuel + 1, k, z =>
    let zn := fallbackStep p c z
    if 4 < Complex.normSq zn then (fallbackNu k zn, false)
    else fallbackLoop p c fuel (k + 1) zn

/-- The fallback path of `julia` restricted to one pixel. -/
def fallbackPixel (p : ℝ) (c : ℂ) (maxIter : ℕ) (z0 : ℂ) : ℝ × Bool :=
  fallbackLoop p c maxIter 0 z0

/-- The sequence of iterates of a step function, starting from `z`. -/
def stepTraj (f : ℂ → ℂ) (z : ℂ) : ℕ → ℂ
  | 0 => z
  | n + 1 => f (stepTraj f z n)

theorem stepTraj_succ_shift (f : ℂ → ℂ) (z : ℂ) (n : ℕ) :
    stepTraj f z (n + 1) = stepTraj f (f z) n := by
  induction n with
  | zero => rfl
  | succ n ih => rw [stepTraj, ih, stepTraj]

theorem two_lt_abs_of_escape {z : ℂ} (h : 4 < Complex.normSq z) : 2 < Complex.abs z := by
  have h2 : (2 : ℝ) ^ 2 < Complex.normSq z := by norm_num [h]
  rw [Complex.abs_apply]
  exact (Real.lt_sqrt (by norm_num)).mpr h2

theorem log_two_lt_log_abs {z : ℂ} (h : 4 < Complex.normSq z) :
    Real.log 2 < Real.log (Complex.abs z) :=
  Real.log_lt_log two_pos (two_lt_abs_of_escape h)

/-- At an actual escape (`mag2 > 4`) the guards inside the numba smooth-count
formula are inactive and it reduces to `k + 1 - log(log|z|)/log 2`. -/
theorem smoothNu_of_escape {z : ℂ} (k : ℕ) (h : 4 < Complex.normSq z) :
    smoothNu k z = (k : ℝ) + 1 - Real.log (Real.log (Complex.abs z)) / Real.log 2 := by
  have hmax : max (Complex.normSq z) 1e-12 = Complex.normSq z :=
    max_eq_left (by linarith)
  have habs : 0.5 * Real.log (Complex.normSq z) = Real.log (Complex.abs z) := by
    rw [← Complex.sq_abs, Real.log_pow]
    push_cast
    ring
  have hpos : (1e-12 : ℝ) < Real.log (Complex.abs z) := by
    have := log_two_lt_log_abs h
    have := Real.log_two_gt_d9
    linarith
  unfold smoothNu
  rw [hmax, habs, if_pos hpos]

/-- At an actual escape the fallback smooth-count formula also reduces to
`k + 1 - log(log|z|)/log 2`. -/
theorem fallbackNu_of_escape {z : ℂ} (k : ℕ) (h : 4 < Complex.normSq z) :
    fallbackNu k z = (k : ℝ) + 1 - Real.log (Real.log (Complex.abs z)) / Real.log 2 := by
  have hmax : max (Complex.abs z) 1e-12 = Complex.abs z := by
    have := two_lt_abs_of_escape h
    exact max_eq_left (by linarith)
  unfold fallbackNu
  rw [hmax]

/-- If the first index `m` with `mag2 > 4` after the step satisfies `m < fuel`,
the numba loop stops there and reports the smooth count at loop index `k + m`. -/
theorem numbaLoop_escape (p : ℝ) (c : ℂ) (m : ℕ) :
    ∀ (fuel k : ℕ) (z : ℂ), m < fuel →
    (∀ j < m, ¬ 4 < Complex.normSq (stepTraj (numbaStep p c) z (j + 1))) →
    4 < Complex.normSq (stepTraj (numbaStep p c) z (m + 1)) →
    numbaLoop p c fuel k z =
      (smoothNu (k + m) (stepTraj (numbaStep p c) z (m + 1)), false) := by
  induction m with
  | zero =>
    intro fuel k z hm _ hesc
    obtain ⟨f, rfl⟩ : ∃ f, fuel = f + 1 := ⟨fuel - 1, by omega⟩
    have h1 : stepTraj (numbaStep p c) z 1 = numbaStep p c z := rfl
    rw [h1] at hesc
    simp only [numbaLoop, h1, if_pos hesc, Nat.add_zero]
  | succ m ih =>
    intro fuel k z hm hfirst hesc
    obtain ⟨f, rfl⟩ : ∃ f, fuel = f + 1 := ⟨fuel - 1, by omega⟩
    have h0 : ¬ 4 < Complex.normSq (stepTraj (numbaStep p c) z 1) :=
      hfirst 0 (Nat.succ_pos m)
    have h1 : stepTraj (numbaStep p c) z 1 = numbaStep p c z := rfl
    rw [h1] at h0
    simp only [numbaLoop, if_neg h0]
    have hshift : ∀ n, stepTraj (numbaStep p c) (numbaStep p c z) n =
        stepTraj (numbaStep p c) z (n + 1) := by
      intro n
      rw [stepTraj_succ_shift]
    rw [ih f (k + 1) (numbaStep p c z) (by omega)
      (fun j hj => by rw [hshift (j + 1)]; exact hfirst (j + 1) (by omega))
      (by rw [hshift (m + 1)]; exact hesc)]
    rw [hshift (m + 1)]
    congr 2
    omega

/-- If no step within the budget reaches `mag2 > 4`, the numba loop reports the
pixel alive with smooth count 0. -/
theorem numbaLoop_alive (p : ℝ) (c : ℂ) :
    ∀ (fuel k : ℕ) (z : ℂ),
    (∀ j < fuel, ¬ 4 < Complex.normSq (stepTraj (numbaStep p c) z (j + 1))) →
    numbaLoop p c fuel k z = (0, true) := by
  intro fuel
  induction fuel with
  | zero => intro k z _; rfl
  | succ f ih =>
    intro k z hno
    have h0 : ¬ 4 < Complex.normSq (stepTraj (numbaStep p c) z 1) := hno 0 (Nat.succ_pos f)
    have h1 : stepTraj (numbaStep p c) z 1 = numbaStep p c z := rfl
    rw [h1] at h0
    simp only [numbaLoop, if_neg h0]
    exact ih (k + 1) (numbaStep p c z)
      (fun j hj => by
        rw [← stepTraj_succ_shift]
        exact hno (j + 1) (by omega))

/-- C1.  Escape-time kernel postcondition: for every starting point, constant,
power and iteration cap, if the first iteration `k` whose updated point has
`|z|² > 4` lies within the cap, the kernel returns the smooth count
`k + 1 - log(log|z|)/log 2` computed from that escaping `z` and marks the pixel
escaped; if no iterate within the cap has `|z|² > 4`, the pixel is alive with
smooth count exactly 0. -/
theorem julia_escape_smooth_postcondition (p : ℝ) (c : ℂ) (N : ℕ) (z0 : ℂ) (k : ℕ) :
    (k < N →
      (∀ j < k, ¬ 4 < Complex.normSq (stepTraj (numbaStep p c) z0 (j + 1))) →
      4 < Complex.normSq (stepTraj (numbaStep p c) z0 (k + 1)) →
      numbaPixel p c N z0 =
        ((k : ℝ) + 1 -
          Real.log (Real.log (Complex.abs (stepTraj (numbaStep p c) z0 (k + 1)))) /
            Real.log 2, false)) ∧
    ((∀ j < N, ¬ 4 < Complex.normSq (stepTraj (numbaStep p c) z0 (j + 1))) →
      numbaPixel p c N z0 = (0, true)) := by
  constructor
  · intro hkN hfirst hesc
    unfold numbaPixel
    rw [numbaLoop_escape p c k N 0 z0 hkN hfirst hesc, Nat.zero_add,
      smoothNu_of_escape k hesc]
  · intro hno
    exact numbaLoop_alive p c N 0 z0 hno

/-- Witness for C1: at `p = 2`, `c = 3`, `z0 = 0`, cap 1, the point escapes at
iteration 0 and the postcondition applies with all hypotheses concrete. -/
theorem julia_escape_smooth_postcondition_witness :
    numbaPixel 2 ((3 : ℝ) : ℂ) 1 0 =
      ((0 : ℝ) + 1 -
        Real.log (Real.log (Complex.abs (stepTraj (numbaStep 2 ((3 : ℝ) : ℂ)) 0 1))) /
          Real.log 2, false) := by
  have hz : stepTraj (numbaStep 2 ((3 : ℝ) : ℂ)) 0 1 = ((3 : ℝ) : ℂ) := by
    show numbaStep 2 ((3 : ℝ) : ℂ) 0 = ((3 : ℝ) : ℂ)
    unfold numbaStep
    rw [if_pos (by rw [Complex.normSq_zero]; norm_num)]
  have h := (julia_escape_smooth_postcondition 2 ((3 : ℝ) : ℂ) 1 0 0).1 (by norm_num)
    (fun j hj => absurd hj (Nat.not_lt_zero j))
    (by rw [show (0:ℕ) + 1 = 1 from rfl, hz, Complex.normSq_ofReal]; norm_num)
  simpa using h

theorem log_two_pos : (0 : ℝ) < Real.log 2 := Real.log_pos one_lt_two

/-- The ratio `log(log|z|)/log 2` of the smooth-count correction is above `-1`
whenever `|z|² > 4`. -/
theorem correction_gt_neg_one {z : ℂ} (h : 4 < Complex.normSq z) :
    -1 < Real.log (Real.log (Complex.abs z)) / Real.log 2 := by
  have h2 : Real.log 2 < Real.log (Complex.abs z) := log_two_lt_log_abs h
  have hhalf : (1 / 2 : ℝ) < Real.log (Complex.abs z) := by
    have := Real.log_two_gt_d9
    linarith
  have hlog : Real.log (1 / 2) < Real.log (Real.log (Complex.abs z)) :=
    Real.log_lt_log (by norm_num) hhalf
  have hneg : Real.log (1 / 2 : ℝ) = -Real.log 2 := by
    rw [one_div, Real.log_inv]
  rw [hneg] at hlog
  have := (div_lt_div_iff_of_pos_right log_two_pos).mpr hlog
  rwa [neg_div, div_self (ne_of_gt log_two_pos)] at this

/-- C9 (amended).  For a pixel whose first escape happens at iteration `k < N`:
the smooth count is at most `N + 1`; it is nonnegative provided the escaping
point satisfies `|z| ≤ e²`; and for a fixed escaping point the smooth-count
formula is strictly increasing in the escape iteration. -/
theorem smooth_nu_bounds (p : ℝ) (c : ℂ) (N : ℕ) (z0 : ℂ) (k : ℕ)
    (hkN : k < N)
    (hfirst : ∀ j < k, ¬ 4 < Complex.normSq (stepTraj (numbaStep p c) z0 (j + 1)))
    (hesc : 4 < Complex.normSq (stepTraj (numbaStep p c) z0 (k + 1))) :
    (numbaPixel p c N z0).1 ≤ (N : ℝ) + 1 ∧
    (Complex.abs (stepTraj (numbaStep p c) z0 (k + 1)) ≤ Real.exp 2 →
      0 ≤ (numbaPixel p c N z0).1) ∧
    (∀ (j m : ℕ) (w : ℂ), j < m → 4 < Complex.normSq w → smoothNu j w < smoothNu m w) := by
  have hval : numbaPixel p c N z0 =
      (smoothNu k (stepTraj (numbaStep p c) z0 (k + 1)), false) := by
    unfold numbaPixel
    rw [numbaLoop_escape p c k N 0 z0 hkN hfirst hesc, Nat.zero_add]
  have hnu : (numbaPixel p c N z0).1 =
      (k : ℝ) + 1 -
        Real.log (Real.log (Complex.abs (stepTraj (numbaStep p c) z0 (k + 1)))) /
          Real.log 2 := by
    rw [hval, smoothNu_of_escape k hesc]
  have hkcast : (k : ℝ) + 1 ≤ (N : ℝ) := by
    exact_mod_cast Nat.succ_le_of_lt hkN
  refine ⟨?_, ?_, ?_⟩
  · rw [hnu]
    have := correction_gt_neg_one hesc
    linarith
  · intro hle
    rw [hnu]
    have habs : 2 < Complex.abs (stepTraj (numbaStep p c) z0 (k + 1)) :=
      two_lt_abs_of_escape hesc
    have hla : Real.log (Complex.abs (stepTraj (numbaStep p c) z0 (k + 1))) ≤ 2 := by
      calc Real.log (Complex.abs (stepTraj (numbaStep p c) z0 (k + 1)))
          ≤ Real.log (Real.exp 2) := Real.log_le_log (by linarith) hle
        _ = 2 := Real.log_exp 2
    have hpos : 0 < Real.log (Complex.abs (stepTraj (numbaStep p c) z0 (k + 1))) := by
      have := Real.log_two_gt_d9
      have := log_two_lt_log_abs hesc
      linarith
    have hll : Real.log (Real.log (Complex.abs (stepTraj (numbaStep p c) z0 (k + 1)))) ≤
        Real.log 2 := Real.log_le_log hpos hla
    have hdiv : Real.log (Real.log (Complex.abs (stepTraj (numbaStep p c) z0 (k + 1)))) /
        Real.log 2 ≤ 1 := by
      rw [div_le_one log_two_pos]
      exact hll
    have hk0 : (0 : ℝ) ≤ (k : ℝ) := Nat.cast_nonneg k
    linarith
  · intro j m w hjm hw
    rw [smoothNu_of_escape j hw, smoothNu_of_escape m hw]
    have : (j : ℝ) < (m : ℝ) := by exact_mod_cast hjm
    linarith

/-- Witness for C9: the amended bounds at the concrete escaping pixel
`p = 2`, `c = 3`, `z0 = 0`, cap 1, escape at iteration 0. -/
theorem smooth_nu_bounds_witness :
    (numbaPixel 2 ((3 : ℝ) : ℂ) 1 0).1 ≤ (1 : ℕ) + 1 ∧
    (Complex.abs (stepTraj (numbaStep 2 ((3 : ℝ) : ℂ)) 0 (0 + 1)) ≤ Real.exp 2 →
      0 ≤ (numbaPixel 2 ((3 : ℝ) : ℂ) 1 0).1) ∧
    (∀ (j m : ℕ) (w : ℂ), j < m → 4 < Complex.normSq w → smoothNu j w < smoothNu m w) := by
  have hz : stepTraj (numbaStep 2 ((3 : ℝ) : ℂ)) 0 (0 + 1) = ((3 : ℝ) : ℂ) := by
    show numbaStep 2 ((3 : ℝ) : ℂ) 0 = ((3 : ℝ) : ℂ)
    unfold numbaStep
    rw [if_pos (by rw [Complex.normSq_zero]; norm_num)]
  have h := smooth_nu_bounds 2 ((3 : ℝ) : ℂ) 1 0 0 (by norm_num)
    (fun j hj => absurd hj (Nat.not_lt_zero j))
    (by rw [hz, Complex.normSq_ofReal]; norm_num)
  simpa using h

/-- Counterexample to C9 as stated: at `p = 2`, `c = 0`, starting point
`z0 = 10`, cap 1, the pixel escapes at iteration 0 yet its smooth count is
negative (about `-1.2`), violating `0 ≤ nu`. -/
theorem smooth_nu_negative : (numbaPixel 2 0 1 ((10 : ℝ) : ℂ)).1 < 0 := by
  have hstep : numbaStep 2 0 ((10 : ℝ) : ℂ) = ((100 : ℝ) : ℂ) := by
    unfold numbaStep polarStep
    rw [if_neg (by rw [Complex.normSq_ofReal]; norm_num)]
    rw [Complex.arg_ofReal_of_nonneg (by norm_num), mul_zero, Complex.ofReal_zero,
      zero_mul, Complex.exp_zero, mul_one, add_zero, Complex.abs_ofReal]
    norm_num
  have hval : numbaPixel 2 0 1 ((10 : ℝ) : ℂ) = (smoothNu 0 ((100 : ℝ) : ℂ), false) := by
    unfold numbaPixel numbaLoop
    rw [hstep, if_pos (by rw [Complex.normSq_ofReal]; norm_num)]
  have hesc : (4 : ℝ) < Complex.normSq ((100 : ℝ) : ℂ) := by
    rw [Complex.normSq_ofReal]; norm_num
  rw [hval, smoothNu_of_escape 0 hesc, Complex.abs_ofReal]
  have h100 : |(100 : ℝ)| = 100 := by norm_num
  rw [h100]
  have hexp : Real.exp 2 < 100 := by
    have h1 : Real.exp 2 = Real.exp 1 * Real.exp 1 := by
      rw [← Real.exp_add]; norm_num
    nlinarith [Real.exp_one_lt_d9, Real.exp_pos 1]
  have hlog100 : (2 : ℝ) < Real.log 100 :=
    (Real.lt_log_iff_exp_lt (by norm_num)).mpr hexp
  have hll : Real.log 2 < Real.log (Real.log 100) :=
    Real.log_lt_log two_pos hlog100
  have hdiv : 1 < Real.log (Real.log 100) / Real.log 2 := by
    rw [lt_div_iff₀ log_two_pos, one_mul]
    exact hll
  push_cast
  linarith

/-- C2 (amended).  Step dispatch: the fallback kernel inside `julia` performs
`z ← z·z + c` exactly when `|p - 2| < 1e-6` and the polar-form step otherwise,
while the numba kernel `julia_escape_smooth` computes every step in polar form
regardless of `p`, except that a point with `|z|² < 1e-12` is reset to `c`. -/
theorem step_dispatch (p : ℝ) (c z : ℂ) :
    (|p - 2| < 1e-6 → fallbackStep p c z = z * z + c) ∧
    (¬ |p - 2| < 1e-6 → fallbackStep p c z = polarStep p c z) ∧
    (¬ Complex.normSq z < 1e-12 → numbaStep p c z = polarStep p c z) ∧
    (Complex.normSq z < 1e-12 → numbaStep p c z = c) := by
  refine ⟨fun h => ?_, fun h => ?_, fun h => ?_, fun h => ?_⟩
  · unfold fallbackStep; rw [if_pos h]
  · unfold fallbackStep; rw [if_neg h]
  · unfold numbaStep; rw [if_neg h]
  · unfold numbaStep; rw [if_pos h]

/-- Witness for C2: each dispatch case at a concrete input. -/
theorem step_dispatch_witness :
    fallbackStep 2 0 ((3 : ℝ) : ℂ) = ((3 : ℝ) : ℂ) * ((3 : ℝ) : ℂ) + 0 ∧
    fallbackStep 3 0 ((2 : ℝ) : ℂ) = polarStep 3 0 ((2 : ℝ) : ℂ) ∧
    numbaStep 3 0 ((2 : ℝ) : ℂ) = polarStep 3 0 ((2 : ℝ) : ℂ) ∧
    numbaStep 2 ((5 : ℝ) : ℂ) 0 = ((5 : ℝ) : ℂ) :=
  ⟨(step_dispatch 2 0 ((3 : ℝ) : ℂ)).1 (by norm_num),
    (step_dispatch 3 0 ((2 : ℝ) : ℂ)).2.1 (by norm_num),
    (step_dispatch 3 0 ((2 : ℝ) : ℂ)).2.2.1
      (by rw [Complex.normSq_ofReal]; norm_num),
    (step_dispatch 2 ((5 : ℝ) : ℂ) 0).2.2.2
      (by rw [Complex.normSq_zero]; norm_num)⟩

/-- Counterexample to C2 as stated: at power `p = 2 + 1e-7`, which is
different from 2, the fallback kernel still takes the direct-multiplication
step, and at `z = 2`, `c = 0` that step provably differs from the polar-form
step the claim prescribes for every `p ≠ 2`. -/
theorem step_dispatch_tolerance_cex :
    ((2 : ℝ) + 1e-7 ≠ 2) ∧
    fallbackStep (2 + 1e-7) 0 ((2 : ℝ) : ℂ) ≠ polarStep (2 + 1e-7) 0 ((2 : ℝ) : ℂ) := by
  constructor
  · norm_num
  · have hfb : fallbackStep (2 + 1e-7) 0 ((2 : ℝ) : ℂ) = ((4 : ℝ) : ℂ) := by
      unfold fallbackStep
      rw [if_pos (by rw [show (2 : ℝ) + 1e-7 - 2 = 1e-7 by ring,
        abs_of_pos (by norm_num)]; norm_num)]
      rw [← Complex.ofReal_mul, add_zero]
      norm_num
    have hpl : polarStep (2 + 1e-7) 0 ((2 : ℝ) : ℂ) =
        (((2 : ℝ) ^ ((2 : ℝ) + 1e-7) : ℝ) : ℂ) := by
      unfold polarStep
      rw [Complex.arg_ofReal_of_nonneg (by norm_num), mul_zero, Complex.ofReal_zero,
        zero_mul, Complex.exp_zero, mul_one, add_zero, Complex.abs_ofReal,
        abs_of_pos (by norm_num : (0 : ℝ) < 2)]
    rw [hfb, hpl, Ne, Complex.ofReal_inj]
    intro hEq
    have hsplit : (2 : ℝ) ^ ((2 : ℝ) + 1e-7) = 4 * (2 : ℝ) ^ (1e-7 : ℝ) := by
      rw [Real.rpow_add two_pos]
      norm_num
    have hgt : 1 < (2 : ℝ) ^ (1e-7 : ℝ) :=
      (Real.one_lt_rpow_iff_of_pos two_pos).mpr (Or.inl ⟨one_lt_two, by norm_num⟩)
    nlinarith

/-- For `p = 2` the polar-form step agrees with direct multiplication:
`|z|² · exp(2i·arg z) + c = z·z + c`. -/
theorem polarStep_two (c z : ℂ) : polarStep 2 c z = z * z + c := by
  unfold polarStep
  have key : ((Complex.abs z : ℝ) : ℂ) * Complex.exp ((Complex.arg z : ℝ) * Complex.I) = z :=
    Complex.abs_mul_exp_arg_mul_I z
  have h1 : ((Complex.abs z ^ (2 : ℝ) : ℝ) : ℂ) = ((Complex.abs z : ℝ) : ℂ) ^ (2 : ℕ) := by
    rw [show (2 : ℝ) = ((2 : ℕ) : ℝ) by norm_num, Real.rpow_natCast, Complex.ofReal_pow]
  have h2 : Complex.exp (((2 * Complex.arg z : ℝ) : ℂ) * Complex.I) =
      Complex.exp ((Complex.arg z : ℝ) * Complex.I) ^ (2 : ℕ) := by
    rw [← Complex.exp_nat_mul]
    congr 1
    push_cast
    ring
  rw [h1, h2, ← mul_pow, key]
  ring

/-- Outside the `1e-12` magnitude guard, and for powers on which the fallback
does not take the mismatched direct-multiplication branch, the two kernels take
the same step. -/
theorem steps_eq_of_guard {p : ℝ} (hp : p = 2 ∨ 1e-6 ≤ |p - 2|) (c z : ℂ)
    (hz : ¬ Complex.normSq z < 1e-12) : numbaStep p c z = fallbackStep p c z := by
  rcases hp with rfl | hp
  · unfold numbaStep fallbackStep
    rw [if_neg hz, if_pos (by norm_num), polarStep_two]
  · unfold numbaStep fallbackStep
    rw [if_neg hz, if_neg (not_lt.mpr hp)]

theorem loops_eq (p : ℝ) (hp : p = 2 ∨ 1e-6 ≤ |p - 2|) (c : ℂ) :
    ∀ (fuel k : ℕ) (z : ℂ),
    (∀ n < fuel, ¬ Complex.normSq (stepTraj (fallbackStep p c) z n) < 1e-12) →
    numbaLoop p c fuel k z = fallbackLoop p c fuel k z := by
  intro fuel
  induction fuel with
  | zero => intro k z _; rfl
  | succ f ih =>
    intro k z hguard
    have hz : ¬ Complex.normSq z < 1e-12 := by
      have := hguard 0 (Nat.succ_pos f)
      simpa [stepTraj] using this
    have hstep : numbaStep p c z = fallbackStep p c z := steps_eq_of_guard hp c z hz
    simp only [numbaLoop, fallbackLoop, hstep]
    by_cases hesc : 4 < Complex.normSq (fallbackStep p c z)
    · rw [if_pos hesc, if_pos hesc, smoothNu_of_escape k hesc, fallbackNu_of_escape k hesc]
    · rw [if_neg hesc, if_neg hesc]
      apply ih (k + 1) (fallbackStep p c z)
      intro n hn
      have hsh := hguard (n + 1) (by omega)
      rwa [stepTraj_succ_shift] at hsh

/-- C3 (amended).  Kernel path equivalence: on every pixel whose fallback
trajectory never enters the `|z|² < 1e-12` region guarded by the JIT kernel
(and for powers outside the `|p-2| < 1e-6` direct-multiplication
tolerance, or exactly 2), `julia_escape_smooth` and the pure-array fallback of
`julia` return identical `(smooth count, escaped)` results. -/
theorem kernels_equivalent (p : ℝ) (c z0 : ℂ) (N : ℕ)
    (hp : p = 2 ∨ 1e-6 ≤ |p - 2|)
    (hguard : ∀ n < N, ¬ Complex.normSq (stepTraj (fallbackStep p c) z0 n) < 1e-12) :
    numbaPixel p c N z0 = fallbackPixel p c N z0 :=
  loops_eq p hp c N 0 z0 hguard

/-- Witness for C3: the two kernels agree at `p = 2`, `c = 0`, `z0 = 3`, cap 1. -/
theorem kernels_equivalent_witness :
    numbaPixel 2 0 1 ((3 : ℝ) : ℂ) = fallbackPixel 2 0 1 ((3 : ℝ) : ℂ) := by
  apply kernels_equivalent 2 0 ((3 : ℝ) : ℂ) 1 (Or.inl rfl)
  intro n hn
  have hn0 : n = 0 := by omega
  subst hn0
  show ¬ Complex.normSq ((3 : ℝ) : ℂ) < 1e-12
  rw [Complex.normSq_ofReal]
  norm_num

/-- Counterexample to C3 as stated: at `p = 2`, `c = 2`, starting point
`z0 = 3e-7` and cap 1, the `1e-12` guard of the JIT kernel snaps `z` to `c = 2`
(squared magnitude exactly 4, no escape, pixel alive), while the fallback
computes `z² + c = 2 + 9e-14` (squared magnitude above 4, pixel escaped):
the two paths even disagree on the escaped mask. -/
theorem kernels_differ_cex :
    (numbaPixel 2 ((2 : ℝ) : ℂ) 1 ((3e-7 : ℝ) : ℂ)).2 = true ∧
    (fallbackPixel 2 ((2 : ℝ) : ℂ) 1 ((3e-7 : ℝ) : ℂ)).2 = false ∧
    numbaPixel 2 ((2 : ℝ) : ℂ) 1 ((3e-7 : ℝ) : ℂ) ≠
      fallbackPixel 2 ((2 : ℝ) : ℂ) 1 ((3e-7 : ℝ) : ℂ) := by
  have hstep : numbaStep 2 ((2 : ℝ) : ℂ) ((3e-7 : ℝ) : ℂ) = ((2 : ℝ) : ℂ) := by
    unfold numbaStep
    rw [if_pos (by rw [Complex.normSq_ofReal]; norm_num)]
  have hval : numbaPixel 2 ((2 : ℝ) : ℂ) 1 ((3e-7 : ℝ) : ℂ) = (0, true) := by
    unfold numbaPixel
    simp only [numbaLoop, hstep]
    rw [if_neg (by rw [Complex.normSq_ofReal]; norm_num)]
  have hstep2 : fallbackStep 2 ((2 : ℝ) : ℂ) ((3e-7 : ℝ) : ℂ) = ((9e-14 + 2 : ℝ) : ℂ) := by
    unfold fallbackStep
    rw [if_pos (by norm_num)]
    norm_cast
    norm_num
  have hval2 : fallbackPixel 2 ((2 : ℝ) : ℂ) 1 ((3e-7 : ℝ) : ℂ) =
      (fallbackNu 0 ((9e-14 + 2 : ℝ) : ℂ), false) := by
    unfold fallbackPixel
    simp only [fallbackLoop, hstep2]
    rw [if_pos (by rw [Complex.normSq_ofReal]; norm_num)]
  refine ⟨by rw [hval], by rw [hval2], by rw [hval, hval2]; simp⟩

/-! ## Continuity controller (`julia_audio_frames_2d`, lines 788-803)

Per frame: `c_target` from the preset and the conditioned features, then
single-pole inertia with `alpha_c = 0.12` (first frame jumps to the target),
then a micro-drift of amplitude `0.0006` with direction
`(sin(2*pi*i/240), cos(2*pi*i/240))` added to the running value.
-/

/-- Inertia coefficient `alpha_c = 0.12` (`fractals.py` line 722). -/
def alphaC : ℝ := 0.12

/-- Drift amplitude `drift = 0.0006` (`fractals.py` lines 723 and 799). -/
def driftAmp : ℝ := 0.0006

/-- Unit drift direction at frame `i` (`fractals.py` lines 800-801). -/
def driftVec (i : ℕ) : ℂ :=
  ⟨Real.sin (2 * Real.pi * i / 240), Real.cos (2 * Real.pi * i / 240)⟩

theorem abs_driftVec (i : ℕ) : Complex.abs (driftVec i) = 1 := by
  rw [Complex.abs_apply]
  unfold driftVec
  rw [Complex.normSq_mk]
  have h : Real.sin (2 * Real.pi * i / 240) * Real.sin (2 * Real.pi * i / 240) +
      Real.cos (2 * Real.pi * i / 240) * Real.cos (2 * Real.pi * i / 240) = 1 := by
    have := Real.sin_sq_add_cos_sq (2 * Real.pi * i / 240)
    nlinarith
  rw [h, Real.sqrt_one]

/-- The smoothed constant sequence emitted by `julia_audio_frames_2d`
(lines 791-803) for a target sequence `T`: the first frame equals the target,
afterwards `prev + alpha_c*(target - prev)`, and the micro-drift is added to
every frame (including the first). -/
def cFrame (T : ℕ → ℂ) : ℕ → ℂ
  | 0 => T 0 + (driftAmp : ℝ) * driftVec 0
  | i + 1 => cFrame T i + (alphaC : ℝ) * (T (i + 1) - cFrame T i) +
      (driftAmp : ℝ) * driftVec (i + 1)

/-- C5.  Bounded step of the continuity controller: for every target sequence,
the per-frame change of the emitted constant is at most the inertia-limited
delta `alpha_c * |c_target[i+1] - c_frame[i]|` plus the drift amplitude. -/
theorem c_frame_bounded_step (T : ℕ → ℂ) (i : ℕ) :
    Complex.abs (cFrame T (i + 1) - cFrame T i) ≤
      alphaC * Complex.abs (T (i + 1) - cFrame T i) + driftAmp := by
  have hd : cFrame T (i + 1) - cFrame T i =
      (alphaC : ℝ) * (T (i + 1) - cFrame T i) + (driftAmp : ℝ) * driftVec (i + 1) := by
    show cFrame T i + (alphaC : ℝ) * (T (i + 1) - cFrame T i) +
        (driftAmp : ℝ) * driftVec (i + 1) - cFrame T i = _
    ring
  rw [hd]
  calc Complex.abs ((alphaC : ℝ) * (T (i + 1) - cFrame T i) +
        (driftAmp : ℝ) * driftVec (i + 1))
      ≤ Complex.abs ((alphaC : ℝ) * (T (i + 1) - cFrame T i)) +
        Complex.abs ((driftAmp : ℝ) * driftVec (i + 1)) := Complex.abs.add_le _ _
    _ = alphaC * Complex.abs (T (i + 1) - cFrame T i) + driftAmp := by
        rw [map_mul, map_mul, abs_driftVec,
          Complex.abs_of_nonneg (show (0 : ℝ) ≤ alphaC by norm_num [alphaC]),
          Complex.abs_of_nonneg (show (0 : ℝ) ≤ driftAmp by norm_num [driftAmp])]
        ring

/-- Target constant of the `"calm"` preset (`JULIA_PRESETS`, lines 607-616:
base `(-0.62, 0.43)`, amplitudes `(0.12, 0.06)`) for conditioned features
`(a, b)` with zero base offsets, per lines 788-789. -/
def calmTarget (a b : ℝ) : ℂ := ⟨-0.62 + 0.12 * (a - 0.5), 0.43 + 0.06 * (b - 0.5)⟩

/-- The emitted constant sequence for a constant conditioned feature stream
`energy = brightness = 0.5` under the calm preset. -/
def calmCSeq (i : ℕ) : ℂ := cFrame (fun _ => calmTarget 0.5 0.5) i

theorem calmTarget_half : calmTarget 0.5 0.5 = ⟨-0.62, 0.43⟩ := by
  unfold calmTarget
  norm_num

theorem calmCSeq_zero :
    (calmCSeq 0).re = -0.62 + driftAmp * Real.sin (2 * Real.pi * (0 : ℕ) / 240) ∧
    (calmCSeq 0).im = 0.43 + driftAmp * Real.cos (2 * Real.pi * (0 : ℕ) / 240) := by
  unfold calmCSeq cFrame
  rw [calmTarget_half]
  constructor
  · rw [Complex.add_re, Complex.re_ofReal_mul]
    rfl
  · rw [Complex.add_im, Complex.im_ofReal_mul]
    rfl

theorem calmCSeq_succ (i : ℕ) :
    (calmCSeq (i + 1)).re = (calmCSeq i).re + alphaC * (-0.62 - (calmCSeq i).re) +
      driftAmp * Real.sin (2 * Real.pi * (i + 1 : ℕ) / 240) ∧
    (calmCSeq (i + 1)).im = (calmCSeq i).im + alphaC * (0.43 - (calmCSeq i).im) +
      driftAmp * Real.cos (2 * Real.pi * (i + 1 : ℕ) / 240) := by
  have h : calmCSeq (i + 1) = calmCSeq i +
      (alphaC : ℝ) * (calmTarget 0.5 0.5 - calmCSeq i) +
      (driftAmp : ℝ) * driftVec (i + 1) := rfl
  rw [calmTarget_half] at h
  constructor
  · rw [h, Complex.add_re, Complex.add_re, Complex.re_ofReal_mul, Complex.re_ofReal_mul,
      Complex.sub_re]
    rfl
  · rw [h, Complex.add_im, Complex.add_im, Complex.im_ofReal_mul, Complex.im_ofReal_mul,
      Complex.sub_im]
    rfl

theorem calmCSeq_re_bound : ∀ i, |(calmCSeq i).re + 0.62| ≤ 0.005 := by
  intro i
  induction i with
  | zero =>
    rw [calmCSeq_zero.1]
    have hs := Real.neg_one_le_sin (2 * Real.pi * (0 : ℕ) / 240)
    have hs2 := Real.sin_le_one (2 * Real.pi * (0 : ℕ) / 240)
    rw [abs_le]
    constructor <;> · simp only [driftAmp]; nlinarith
  | succ i ih =>
    rw [(calmCSeq_succ i).1]
    have hs := Real.neg_one_le_sin (2 * Real.pi * (i + 1 : ℕ) / 240)
    have hs2 := Real.sin_le_one (2 * Real.pi * (i + 1 : ℕ) / 240)
    rw [abs_le] at ih ⊢
    constructor <;> · simp only [driftAmp, alphaC] at ih ⊢; nlinarith

theorem calmCSeq_im_bound : ∀ i, |(calmCSeq i).im - 0.43| ≤ 0.005 := by
  intro i
  induction i with
  | zero =>
    rw [calmCSeq_zero.2]
    have hs := Real.neg_one_le_cos (2 * Real.pi * (0 : ℕ) / 240)
    have hs2 := Real.cos_le_one (2 * Real.pi * (0 : ℕ) / 240)
    rw [abs_le]
    constructor <;> · simp only [driftAmp]; nlinarith
  | succ i ih =>
    rw [(calmCSeq_succ i).2]
    have hs := Real.neg_one_le_cos (2 * Real.pi * (i + 1 : ℕ) / 240)
    have hs2 := Real.cos_le_one (2 * Real.pi * (i + 1 : ℕ) / 240)
    rw [abs_le] at ih ⊢
    constructor <;> · simp only [driftAmp, alphaC] at ih ⊢; nlinarith

/-- C6 (amended).  Under the calm preset with the constant conditioned stream
`energy = brightness = 0.5`, the emitted constant stays within `0.005` of the
base `(-0.62, 0.43)` in both components (the inertia pulls toward the base,
whose target the features reproduce exactly), but the persistent micro-drift
keeps moving it: already the first two frames receive different constants, so
the rendered frames are not guaranteed pixel-identical. -/
theorem calm_c_frame_near_base :
    (∀ i, |(calmCSeq i).re + 0.62| ≤ 0.005 ∧ |(calmCSeq i).im - 0.43| ≤ 0.005) ∧
    (calmCSeq 0).im ≠ (calmCSeq 1).im := by
  refine ⟨fun i => ⟨calmCSeq_re_bound i, calmCSeq_im_bound i⟩, ?_⟩
  have h0 : (calmCSeq 0).im = 0.43 + driftAmp := by
    rw [calmCSeq_zero.2]
    norm_num
  have h1 : (calmCSeq 1).im = (calmCSeq 0).im + alphaC * (0.43 - (calmCSeq 0).im) +
      driftAmp * Real.cos (2 * Real.pi * (1 : ℕ) / 240) := (calmCSeq_succ 0).2
  have hcos : 1 - (2 * Real.pi * (1 : ℕ) / 240) ^ 2 / 2 ≤
      Real.cos (2 * Real.pi * (1 : ℕ) / 240) :=
    Real.one_sub_sq_div_two_le_cos
  have hpi4 : Real.pi ≤ 4 := Real.pi_le_four
  have hpi0 : 0 < Real.pi := Real.pi_pos
  have hx : (2 * Real.pi * (1 : ℕ) / 240) ^ 2 ≤ (1 / 30 : ℝ) ^ 2 := by
    have hb : 2 * Real.pi * (1 : ℕ) / 240 ≤ 1 / 30 := by
      push_cast
      nlinarith
    have hnn : 0 ≤ 2 * Real.pi * (1 : ℕ) / 240 := by positivity
    nlinarith
  intro hEq
  rw [h1, h0] at hEq
  simp only [driftAmp, alphaC] at hEq hcos hx
  nlinarith [hEq, hcos, hx]

/-- Counterexample to C6 as stated: the emitted imaginary component does not
converge to `0.43` — if it did, the drift term `0.0006·cos(2πi/240)` would
converge as well, but along frames `i ≡ 0 (mod 240)` the cosine is constantly
1 while a convergent drift would have to tend to 0. -/
theorem calm_c_frame_not_convergent :
    ¬ Filter.Tendsto (fun i => (calmCSeq i).im) Filter.atTop (nhds 0.43) := by
  intro h
  have h1 : Filter.Tendsto (fun i => (calmCSeq (i + 1)).im) Filter.atTop (nhds 0.43) :=
    h.comp (Filter.tendsto_add_atTop_nat 1)
  have h2 : Filter.Tendsto
      (fun i => (calmCSeq (i + 1)).im - (1 - alphaC) * (calmCSeq i).im - alphaC * 0.43)
      Filter.atTop (nhds (0.43 - (1 - alphaC) * 0.43 - alphaC * 0.43)) :=
    (h1.sub (h.const_mul (1 - alphaC))).sub_const (alphaC * 0.43)
  have hzero : (0.43 : ℝ) - (1 - alphaC) * 0.43 - alphaC * 0.43 = 0 := by ring
  rw [hzero] at h2
  have heq : ∀ i, (calmCSeq (i + 1)).im - (1 - alphaC) * (calmCSeq i).im - alphaC * 0.43 =
      driftAmp * Real.cos (2 * Real.pi * (i + 1 : ℕ) / 240) := by
    intro i
    rw [(calmCSeq_succ i).2]
    ring
  have h3 : Filter.Tendsto (fun i => driftAmp * Real.cos (2 * Real.pi * (i + 1 : ℕ) / 240))
      Filter.atTop (nhds 0) := h2.congr heq
  have h4 : Filter.Tendsto (fun i => Real.cos (2 * Real.pi * (i + 1 : ℕ) / 240))
      Filter.atTop (nhds 0) := by
    have h5 := h3.const_mul (driftAmp⁻¹)
    rw [mul_zero] at h5
    refine h5.congr fun i => ?_
    rw [← mul_assoc, inv_mul_cancel₀ (by norm_num [driftAmp]), one_mul]
  have hmono : Filter.Tendsto (fun k : ℕ => 240 * k + 239) Filter.atTop Filter.atTop := by
    refine Filter.tendsto_atTop_mono ?_ Filter.tendsto_id
    intro k
    simp only [id_eq]
    omega
  have hsub2 : Filter.Tendsto
      (fun k : ℕ => Real.cos (2 * Real.pi * ((240 * k + 239 : ℕ) + 1 : ℕ) / 240))
      Filter.atTop (nhds 0) := h4.comp hmono
  have hconst : ∀ k : ℕ, Real.cos (2 * Real.pi * ((240 * k + 239 : ℕ) + 1 : ℕ) / 240) = 1 := by
    intro k
    have harg : 2 * Real.pi * ((240 * k + 239 : ℕ) + 1 : ℕ) / 240 =
        ((k + 1 : ℕ) : ℝ) * (2 * Real.pi) := by
      push_cast
      field_simp
      ring
    rw [harg, Real.cos_nat_mul_two_pi]
  have hone : Filter.Tendsto (fun _ : ℕ => (1 : ℝ)) Filter.atTop (nhds 0) :=
    (Filter.tendsto_congr hconst).mp hsub2
  have := tendsto_nhds_unique hone tendsto_const_nhds
  norm_num at this

/-! ## Grid handling in `julia_audio_frames_2d` (lines 752-785)

With fixed dimensions the complex grid `Z0` is a persistent variable.  Per
frame: if rotation is enabled, the accumulated angle is incremented and the
*current* grid (not the base grid) is rotated about the view center by the
*accumulated* angle; then, if the z offset is nonzero, it is added to the
persistent grid.  Each grid point evolves independently, so the state is
embedded per grid point together with the angle accumulator. -/

/-- One frame of grid-state evolution as the code performs it: state is
`(grid point, rotation_angle)`. -/
def gridStep (rot : Bool) (v : ℝ) (ctr off : ℂ) (s : ℂ × ℝ) : ℂ × ℝ :=
  let a := if rot then s.2 + v else s.2
  let z1 := if rot then (s.1 - ctr) * Complex.exp ((a : ℝ) * Complex.I) + ctr else s.1
  let z2 := if off = 0 then z1 else z1 + off
  (z2, a)

/-- The grid state handed to the kernel at frame `i` (frame 0 already applies
one step, since rotation/offset are processed before rendering). -/
def gridSeq (rot : Bool) (v : ℝ) (ctr off z0 : ℂ) : ℕ → ℂ × ℝ
  | 0 => gridStep rot v ctr off (z0, 0)
  | i + 1 => gridStep rot v ctr off (gridSeq rot v ctr off z0 i)

/-- Modelled from the spec (§4.6, and claim C7): the grid point the kernel
should receive at frame `i` — the base point rotated about the view center by
the accumulated angle `v·(i+1)`, with the constant offset applied once. -/
def specRotatedGrid (v : ℝ) (ctr off z0 : ℂ) (i : ℕ) : ℂ :=
  (z0 - ctr) * Complex.exp (((v * (i + 1) : ℝ) : ℂ) * Complex.I) + ctr + off

/-- C7.  Evidence for the code bug: with rotation enabled at velocity `π`,
center `0`, no offset and base point `1`, the code hands frame 1 the point
`-1` (it re-rotates the already-rotated grid by the accumulated angle,
compounding to `3π`), while the specified grid point for accumulated angle
`2π` is `1`.  The reuse half of the claim does hold: with rotation disabled
and zero offset the grid state is reused verbatim across all frames. -/
theorem grid_rotation_compounds :
    (gridSeq true Real.pi 0 0 1 1).1 = -1 ∧
    specRotatedGrid Real.pi 0 0 1 1 = 1 ∧
    (gridSeq true Real.pi 0 0 1 1).1 ≠ specRotatedGrid Real.pi 0 0 1 1 ∧
    (∀ (v : ℝ) (ctr z0 : ℂ) (i : ℕ), gridSeq false v ctr 0 z0 i = (z0, 0)) := by
  have hstep0 : gridSeq true Real.pi 0 0 1 1 = (-1, Real.pi + Real.pi) := by
    show gridStep true Real.pi 0 0 (gridStep true Real.pi 0 0 (1, 0)) = _
    unfold gridStep
    simp only [if_pos rfl, sub_zero, add_zero, zero_add, if_true]
    rw [Complex.ofReal_add]
    have h1 : Complex.exp ((Real.pi : ℂ) * Complex.I) = -1 := Complex.exp_pi_mul_I
    have h2 : Complex.exp (((Real.pi : ℂ) + (Real.pi : ℂ)) * Complex.I) = 1 := by
      rw [show ((Real.pi : ℂ) + (Real.pi : ℂ)) * Complex.I = 2 * Real.pi * Complex.I by ring]
      exact Complex.exp_two_pi_mul_I
    rw [h1, h2]
    norm_num
  have hspec : specRotatedGrid Real.pi 0 0 1 1 = 1 := by
    unfold specRotatedGrid
    have harg : ((Real.pi * ((1 : ℕ) + 1) : ℝ) : ℂ) * Complex.I = 2 * Real.pi * Complex.I := by
      push_cast
      ring
    rw [harg, Complex.exp_two_pi_mul_I]
    norm_num
  refine ⟨by rw [hstep0], hspec, ?_, ?_⟩
  · rw [hstep0, hspec]
    intro hcontra
    have := congrArg Complex.re hcontra
    norm_num at this
  · intro v ctr z0 i
    induction i with
    | zero =>
      show gridStep false v ctr 0 (z0, 0) = (z0, 0)
      unfold gridStep
      simp
    | succ i ih =>
      show gridStep false v ctr 0 (gridSeq false v ctr 0 z0 i) = (z0, 0)
      rw [ih]
      unfold gridStep
      simp

/-! ## Feature conditioner (`audio_features.py`, lines 4-20)

Raw feature arrays are embedded as lists of reals.  `np.percentile` sorts the
array and linearly interpolates at the virtual index `q/100·(n-1)`;
`np.clip`, `min`, `max` are elementwise/reduction operations. -/

/-- Elementwise clip `np.clip(x, lo, hi)`. -/
def clipR (x lo hi : ℝ) : ℝ := min (max x lo) hi

theorem clipR_mem {x lo hi : ℝ} (h : lo ≤ hi) : lo ≤ clipR x lo hi ∧ clipR x lo hi ≤ hi :=
  ⟨le_min (le_max_right x lo) h, min_le_right _ hi⟩

/-- Insert a value into a sorted list, keeping it sorted. -/
def insertSorted (x : ℝ) : List ℝ → List ℝ
  | [] => [x]
  | y :: ys => if x ≤ y then x :: y :: ys else y :: insertSorted x ys

/-- Ascending sort, as performed inside `np.percentile`. -/
def sortList : List ℝ → List ℝ
  | [] => []
  | x :: xs => insertSorted x (sortList xs)

/-- Array minimum `ndarray.min()` (0 on the empty array, never used there by the code). -/
def listMin : List ℝ → ℝ
  | [] => 0
  | [x] => x
  | x :: y :: t => min x (listMin (y :: t))

/-- Array maximum `ndarray.max()`. -/
def listMax : List ℝ → ℝ
  | [] => 0
  | [x] => x
  | x :: y :: t => max x (listMax (y :: t))

theorem listMin_le {l : List ℝ} {v : ℝ} (hv : v ∈ l) : listMin l ≤ v := by
  induction l with
  | nil => cases hv
  | cons x t ih =>
    cases t with
    | nil =>
      rcases List.mem_singleton.mp hv with rfl
      exact le_refl v
    | cons y s =>
      rcases List.mem_cons.mp hv with rfl | hv2
      · exact min_le_left _ _
      · exact le_trans (min_le_right _ _) (ih hv2)

theorem le_listMax {l : List ℝ} {v : ℝ} (hv : v ∈ l) : v ≤ listMax l := by
  induction l with
  | nil => cases hv
  | cons x t ih =>
    cases t with
    | nil =>
      rcases List.mem_singleton.mp hv with rfl
      exact le_refl v
    | cons y s =>
      rcases List.mem_cons.mp hv with rfl | hv2
      · exact le_max_left _ _
      · exact le_trans (ih hv2) (le_max_right _ _)

/-- Percentile `np.percentile(xs, q)` with the default linear interpolation: sort, take
the virtual index `h = q/100·(n-1)`, and interpolate between the neighboring
order statistics. -/
def npPercentile (xs : List ℝ) (q : ℝ) : ℝ :=
  (sortList xs).getD (⌊q / 100 * ((xs.length : ℝ) - 1)⌋).toNat 0 +
    (q / 100 * ((xs.length : ℝ) - 1) - ((⌊q / 100 * ((xs.length : ℝ) - 1)⌋).toNat : ℝ)) *
      ((sortList xs).getD (⌈q / 100 * ((xs.length : ℝ) - 1)⌉).toNat 0 -
        (sortList xs).getD (⌊q / 100 * ((xs.length : ℝ) - 1)⌋).toNat 0)

/-- Robust normalization `_norm01_robust` (`audio_features.py` lines 4-7): clip to the 5th/95th
percentile band, then rescale by the clipped min/max with a `1e-12` guard. -/
def norm01Robust (xs : List ℝ) : List ℝ :=
  (xs.map (fun v => clipR v (npPercentile xs 5) (npPercentile xs 95))).map
    (fun v =>
      (v - listMin (xs.map (fun w => clipR w (npPercentile xs 5) (npPercentile xs 95)))) /
        (listMax (xs.map (fun w => clipR w (npPercentile xs 5) (npPercentile xs 95))) -
          listMin (xs.map (fun w => clipR w (npPercentile xs 5) (npPercentile xs 95))) + 1e-12))

/-- The loop of `smooth_ar` (`audio_features.py` lines 17-19): `prev` is
`out[i-1]`; the attack coefficient is used when the sample rises above it. -/
def smoothARGo (au ad prev : ℝ) : List ℝ → List ℝ
  | [] => []
  | x :: xs => (if prev < x then au * x + (1 - au) * prev else ad * x + (1 - ad) * prev) ::
      smoothARGo au ad
        (if prev < x then au * x + (1 - au) * prev else ad * x + (1 - ad) * prev) xs

/-- Attack and release smoothing `smooth_ar` (`audio_features.py` lines 9-20): `out[0] = x[0]`, then the
attack/release recurrence. -/
def smoothAR (au ad : ℝ) : List ℝ → List ℝ
  | [] => []
  | x :: xs => x :: smoothARGo au ad x xs

theorem norm01Robust_length (xs : List ℝ) : (norm01Robust xs).length = xs.length := by
  unfold norm01Robust
  rw [List.length_map, List.length_map]

theorem norm01Robust_mem {xs : List ℝ} {y : ℝ} (hy : y ∈ norm01Robust xs) :
    0 ≤ y ∧ y ≤ 1 := by
  unfold norm01Robust at hy
  rcases List.mem_map.mp hy with ⟨v, hv, rfl⟩
  have hmin : listMin (xs.map (fun w => clipR w (npPercentile xs 5) (npPercentile xs 95))) ≤ v :=
    listMin_le hv
  have hmax : v ≤ listMax (xs.map (fun w => clipR w (npPercentile xs 5) (npPercentile xs 95))) :=
    le_listMax hv
  have hden : 0 <
      listMax (xs.map (fun w => clipR w (npPercentile xs 5) (npPercentile xs 95))) -
        listMin (xs.map (fun w => clipR w (npPercentile xs 5) (npPercentile xs 95))) + 1e-12 := by
    have : listMin (xs.map (fun w => clipR w (npPercentile xs 5) (npPercentile xs 95))) ≤
        listMax (xs.map (fun w => clipR w (npPercentile xs 5) (npPercentile xs 95))) :=
      le_trans hmin hmax
    norm_num
    linarith
  constructor
  · exact div_nonneg (by linarith) (le_of_lt hden)
  · rw [div_le_one hden]
    linarith

theorem smoothARGo_length (au ad : ℝ) : ∀ (xs : List ℝ) (prev : ℝ),
    (smoothARGo au ad prev xs).length = xs.length := by
  intro xs
  induction xs with
  | nil => intro prev; rfl
  | cons x t ih =>
    intro prev
    unfold smoothARGo
    rw [List.length_cons, List.length_cons, ih]

theorem smoothARGo_mem {au ad : ℝ} (hau0 : 0 ≤ au) (hau1 : au ≤ 1)
    (had0 : 0 ≤ ad) (had1 : ad ≤ 1) :
    ∀ (xs : List ℝ) (prev : ℝ), 0 ≤ prev → prev ≤ 1 →
    (∀ x ∈ xs, 0 ≤ x ∧ x ≤ 1) →
    ∀ y ∈ smoothARGo au ad prev xs, 0 ≤ y ∧ y ≤ 1 := by
  intro xs
  induction xs with
  | nil => intro prev _ _ _ y hy; cases hy
  | cons x t ih =>
    intro prev hp0 hp1 hxt y hy
    have hx := hxt x (List.mem_cons_self x t)
    have hnext : 0 ≤ (if prev < x then au * x + (1 - au) * prev
        else ad * x + (1 - ad) * prev) ∧
        (if prev < x then au * x + (1 - au) * prev else ad * x + (1 - ad) * prev) ≤ 1 := by
      split
      · constructor <;> nlinarith [hx.1, hx.2]
      · constructor <;> nlinarith [hx.1, hx.2]
    unfold smoothARGo at hy
    rcases List.mem_cons.mp hy with rfl | hy2
    · exact hnext
    · exact ih _ hnext.1 hnext.2 (fun w hw => hxt w (List.mem_cons_of_mem x hw)) y hy2

/-- C4.  Feature conditioner range: for every raw feature list and any
attack/release coefficients in `[0,1]`, the conditioned output
`smooth_ar (_norm01_robust xs)` has the same length as the input and every
element lies in `[0,1]`. -/
theorem feature_conditioner_range (xs : List ℝ) (au ad : ℝ)
    (hau0 : 0 ≤ au) (hau1 : au ≤ 1) (had0 : 0 ≤ ad) (had1 : ad ≤ 1) :
    (smoothAR au ad (norm01Robust xs)).length = xs.length ∧
    ∀ y ∈ smoothAR au ad (norm01Robust xs), 0 ≤ y ∧ y ≤ 1 := by
  rcases hl : norm01Robust xs with - | ⟨v, rest⟩
  · constructor
    · rw [show smoothAR au ad [] = [] from rfl, ← norm01Robust_length xs, hl]
    · intro y hy
      cases hy
  · have hv : v ∈ norm01Robust xs := by rw [hl]; exact List.mem_cons_self v rest
    have hvr := norm01Robust_mem hv
    constructor
    · rw [show smoothAR au ad (v :: rest) = v :: smoothARGo au ad v rest from rfl,
        List.length_cons, smoothARGo_length, ← norm01Robust_length xs, hl, List.length_cons]
    · intro y hy
      rw [show smoothAR au ad (v :: rest) = v :: smoothARGo au ad v rest from rfl] at hy
      rcases List.mem_cons.mp hy with rfl | hy2
      · exact hvr
      · refine smoothARGo_mem hau0 hau1 had0 had1 rest v hvr.1 hvr.2 ?_ y hy2
        intro w hw
        exact norm01Robust_mem (by rw [hl]; exact List.mem_cons_of_mem v hw)

/-- Witness for C4: the conditioner applied to the concrete raw array
`[3, -40, 100]` with the energy coefficients of the source `(0.10, 0.04)`. -/
theorem feature_conditioner_range_witness :
    (smoothAR 0.10 0.04 (norm01Robust [3, -40, 100])).length = ([3, -40, 100] : List ℝ).length ∧
    ∀ y ∈ smoothAR 0.10 0.04 (norm01Robust [3, -40, 100]), 0 ≤ y ∧ y ≤ 1 :=
  feature_conditioner_range [3, -40, 100] 0.10 0.04 (by norm_num) (by norm_num)
    (by norm_num) (by norm_num)

/-! ## Palette mapper (`julia`, lines 548-590, and the palette functions)

An iteration field is a list of `(nu, alive)` pixels.  The color stage:
percentile contrast stretch over the `nu` values of the escaped pixels (degenerate
ranges widened by `1e-6`), clip, fixed contrast curve, gamma, then a color
ramp (multi-stop `np.interp` gradients, the arithmetic fire ramp, or the
custom two-color ramp), with alive pixels painted with the interior color. -/

/-- Rgb triples carry floating channel values before the final `uint8` cast. -/
abbrev Rgb := ℝ × ℝ × ℝ

/-- Channel values of a valid RGB color all lie in `[0, 255]`. -/
abbrev inRange (c : Rgb) : Prop :=
  0 ≤ c.1 ∧ c.1 ≤ 255 ∧ 0 ≤ c.2.1 ∧ c.2.1 ≤ 255 ∧ 0 ≤ c.2.2 ∧ c.2.2 ≤ 255

/-- Componentwise `np.interp` over a common increasing abscissa list, as the
palette functions perform per channel: clamp below the first stop, clamp
above the last, linear interpolation in between. -/
def npInterp3 : List (ℝ × Rgb) → ℝ → Rgb
  | [], _ => (0, 0, 0)
  | [s], _ => s.2
  | s1 :: s2 :: rest, t =>
    if t ≤ s1.1 then s1.2
    else if t ≤ s2.1 then
      (s1.2.1 + (t - s1.1) / (s2.1 - s1.1) * (s2.2.1 - s1.2.1),
       s1.2.2.1 + (t - s1.1) / (s2.1 - s1.1) * (s2.2.2.1 - s1.2.2.1),
       s1.2.2.2 + (t - s1.1) / (s2.1 - s1.1) * (s2.2.2.2 - s1.2.2.2))
    else npInterp3 (s2 :: rest) t

theorem lerp_mem {a b θ : ℝ} (ha0 : 0 ≤ a) (ha1 : a ≤ 255) (hb0 : 0 ≤ b) (hb1 : b ≤ 255)
    (ht0 : 0 ≤ θ) (ht1 : θ ≤ 1) : 0 ≤ a + θ * (b - a) ∧ a + θ * (b - a) ≤ 255 := by
  constructor <;> nlinarith

theorem npInterp3_inRange : ∀ (l : List (ℝ × Rgb)) (t : ℝ),
    (∀ s ∈ l, inRange s.2) → inRange (npInterp3 l t) := by
  intro l
  induction l with
  | nil =>
    intro t _
    show inRange ((0 : ℝ), (0 : ℝ), (0 : ℝ))
    exact ⟨le_refl 0, by norm_num, le_refl 0, by norm_num, le_refl 0, by norm_num⟩
  | cons s1 tl ih =>
    intro t hall
    cases tl with
    | nil =>
      exact hall s1 (List.mem_cons_self s1 [])
    | cons s2 rest =>
      simp only [npInterp3]
      split
      · exact hall s1 (List.mem_cons_self _ _)
      · rename_i h1
        split
        · rename_i h2
          have hx : 0 < s2.1 - s1.1 := by
            have := not_le.mp h1
            linarith
          have ht0 : 0 ≤ (t - s1.1) / (s2.1 - s1.1) := by
            have := not_le.mp h1
            exact div_nonneg (by linarith) (le_of_lt hx)
          have ht1 : (t - s1.1) / (s2.1 - s1.1) ≤ 1 := by
            rw [div_le_one hx]
            linarith
          obtain ⟨a1, a2, a3, a4, a5, a6⟩ := hall s1 (List.mem_cons_self _ _)
          obtain ⟨b1, b2, b3, b4, b5, b6⟩ :=
            hall s2 (List.mem_cons_of_mem _ (List.mem_cons_self _ _))
          exact ⟨(lerp_mem a1 a2 b1 b2 ht0 ht1).1, (lerp_mem a1 a2 b1 b2 ht0 ht1).2,
            (lerp_mem a3 a4 b3 b4 ht0 ht1).1, (lerp_mem a3 a4 b3 b4 ht0 ht1).2,
            (lerp_mem a5 a6 b5 b6 ht0 ht1).1, (lerp_mem a5 a6 b5 b6 ht0 ht1).2⟩
        · exact ih t (fun s hs => hall s (List.mem_cons_of_mem _ hs))

/-- Arithmetic fire ramp `_palette_fire`: `255·clip(3t, 0, 1)` and shifted
copies per channel, after clipping `t` to `[0,1]`. -/
def paletteFire (t : ℝ) : Rgb :=
  (255 * clipR (3 * clipR t 0 1) 0 1,
   255 * clipR (3 * clipR t 0 1 - 1) 0 1,
   255 * clipR (3 * clipR t 0 1 - 2) 0 1)

/-- Stop table of `_palette_ocean` at abscissas `linspace(0, 1, 6)`. -/
def oceanStops : List (ℝ × Rgb) :=
  [(0, (208, 238, 233)), (0.2, (12, 30, 120)), (0.4, (46, 110, 159)),
   (0.6, (108, 75, 150)), (0.8, (65, 157, 141)), (1, (160, 220, 210))]

/-- Stop table of `_palette_deep_sea` at abscissas `linspace(0, 1, 5)`. -/
def deepSeaStops : List (ℝ × Rgb) :=
  [(0, (3, 8, 20)), (0.25, (10, 25, 55)), (0.5, (20, 60, 90)),
   (0.75, (40, 100, 120)), (1, (90, 160, 170))]

/-- Stop table of `_palette_ethereal` at abscissas `linspace(0, 1, 5)`. -/
def etherealStops : List (ℝ × Rgb) :=
  [(0, (212, 205, 213)), (0.25, (162, 46, 120)), (0.5, (106, 85, 181)),
   (0.75, (157, 141, 215)), (1, (186, 165, 194))]

/-- Stop table of `_palette_mathematical` at abscissas `linspace(0, 1, 5)`. -/
def mathematicalStops : List (ℝ × Rgb) :=
  [(0, (2, 4, 10)), (0.25, (6, 12, 79)), (0.5, (20, 55, 120)),
   (0.75, (90, 160, 230)), (1, (235, 245, 255))]

/-- Stop table of `_palette_abstract` at abscissas `linspace(0, 1, 5)`. -/
def abstractStops : List (ℝ × Rgb) :=
  [(0, (14, 32, 28)), (0.25, (60, 35, 110)), (0.5, (40, 140, 160)),
   (0.75, (180, 90, 210)), (1, (245, 210, 90))]

/-- Stop table of `_palette_warm` at abscissas `linspace(0, 1, 5)`. -/
def warmStops : List (ℝ × Rgb) :=
  [(0, (28, 26, 40)), (0.25, (89, 51, 78)), (0.5, (210, 77, 85)),
   (0.75, (218, 96, 38)), (1, (255, 196, 4))]

def paletteOcean (t : ℝ) : Rgb := npInterp3 oceanStops (clipR t 0 1)

def paletteDeepSea (t : ℝ) : Rgb := npInterp3 deepSeaStops (clipR t 0 1)

def paletteEthereal (t : ℝ) : Rgb := npInterp3 etherealStops (clipR t 0 1)

def paletteMathematical (t : ℝ) : Rgb := npInterp3 mathematicalStops (clipR t 0 1)

def paletteAbstract (t : ℝ) : Rgb := npInterp3 abstractStops (clipR t 0 1)

def paletteWarm (t : ℝ) : Rgb := npInterp3 warmStops (clipR t 0 1)

/-- Stop table of `_create_custom_palette`: darkened main, main, blend,
accent, brightened accent, at abscissas `linspace(0, 1, 6)`. -/
def customStops (m a : Rgb) : List (ℝ × Rgb) :=
  [(0, (0.1 * m.1, 0.1 * m.2.1, 0.1 * m.2.2)),
   (0.2, (0.5 * m.1, 0.5 * m.2.1, 0.5 * m.2.2)),
   (0.4, m),
   (0.6, ((m.1 + a.1) / 2, (m.2.1 + a.2.1) / 2, (m.2.2 + a.2.2) / 2)),
   (0.8, a),
   (1, (1.2 * a.1, 1.2 * a.2.1, 1.2 * a.2.2))]

/-- Custom two-color ramp `_create_custom_palette`: interpolate the custom
stop table, then `np.clip(rgb, 0, 255)`. -/
def createCustomPalette (m a : Rgb) (t : ℝ) : Rgb :=
  (clipR (npInterp3 (customStops m a) (clipR t 0 1)).1 0 255,
   clipR (npInterp3 (customStops m a) (clipR t 0 1)).2.1 0 255,
   clipR (npInterp3 (customStops m a) (clipR t 0 1)).2.2 0 255)

/-- String-keyed palette lookup of `julia` (the `PALETTES` table with the
fire fallback for unknown names). -/
def namedPalette (n : String) (t : ℝ) : Rgb :=
  if n = "fire" then paletteFire t
  else if n = "ocean" then paletteOcean t
  else if n = "deep_sea" then paletteDeepSea t
  else if n = "ethereal" then paletteEthereal t
  else if n = "mathematical" then paletteMathematical t
  else if n = "abstract" then paletteAbstract t
  else if n = "warm" then paletteWarm t
  else paletteFire t

/-- Palette dispatch of `julia` (lines 571-580): the custom ramp when the
name is `"custom"` and both custom colors are present, the named lookup
otherwise (so `"custom"` without colors falls through to fire). -/
def paletteApply (name : String) (cm ca : Option Rgb) (t : ℝ) : Rgb :=
  match cm, ca with
  | some m, some a => if name = "custom" then createCustomPalette m a t else namedPalette name t
  | _, _ => namedPalette name t

/-- Interior color table `INTERIOR_COLORS` with the `(0,0,0)` default. -/
def interiorTable (n : String) : Rgb :=
  if n = "fire" then (0, 0, 0)
  else if n = "ocean" then (205, 226, 235)
  else if n = "deep_sea" then (6, 12, 28)
  else if n = "ethereal" then (20, 11, 66)
  else if n = "mathematical" then (15, 24, 59)
  else if n = "abstract" then (6, 8, 22)
  else if n = "warm" then (18, 26, 40)
  else (0, 0, 0)

/-- Interior color selection of `julia` (lines 582-590): for `"custom"` a
darkened main color (`max(0, c - 30)` per channel, black when missing),
otherwise the table. -/
def interiorColor (name : String) (cm : Option Rgb) : Rgb :=
  if name = "custom" then
    match cm with
    | some m => (max 0 (m.1 - 30), max 0 (m.2.1 - 30), max 0 (m.2.2 - 30))
    | none => (0, 0, 0)
  else interiorTable name

/-- Contrast-stretch parameters of `julia` (lines 558-560): 2nd/98th
percentiles of the escaped `nu` values, replaced by `(min, max + 1e-6)` when
the percentile range degenerates below `1e-6`. -/
def stretchParams (l : List ℝ) : ℝ × ℝ :=
  if npPercentile l 98 - npPercentile l 2 < 1e-6 then (listMin l, listMax l + 1e-6)
  else (npPercentile l 2, npPercentile l 98)

/-- Normalized field of `julia` (lines 548-561): zero everywhere, with
escaped pixels linearly rescaled by the stretch parameters computed from the
escaped pixels of the whole field. -/
def juliaTField (field : List (ℝ × Bool)) : List ℝ :=
  field.map (fun pr => if pr.2 then 0
    else (pr.1 - (stretchParams ((field.filter (fun q => !q.2)).map Prod.fst)).1) /
      ((stretchParams ((field.filter (fun q => !q.2)).map Prod.fst)).2 -
        (stretchParams ((field.filter (fun q => !q.2)).map Prod.fst)).1))

/-- Clip and fixed contrast curve of `julia` (lines 563-566):
`clip((clip(t,0,1) - 0.5)·1.25 + 0.5, 0, 1)`. -/
def contrastCurve (t : ℝ) : ℝ := clipR ((clipR t 0 1 - 0.5) * 1.25 + 0.5) 0 1

/-- Full color stage of `julia` (lines 548-590): normalize, contrast, gamma,
palette, and interior fill for alive pixels. -/
def juliaColor (name : String) (cm ca : Option Rgb) (g : ℝ)
    (field : List (ℝ × Bool)) : List Rgb :=
  (field.zip (juliaTField field)).map (fun pt =>
    if pt.1.2 then interiorColor name cm
    else paletteApply name cm ca (contrastCurve pt.2 ^ g))

theorem paletteFire_inRange (t : ℝ) : inRange (paletteFire t) := by
  have h1 : (0 : ℝ) ≤ clipR (3 * clipR t 0 1) 0 1 ∧ clipR (3 * clipR t 0 1) 0 1 ≤ 1 :=
    clipR_mem (by norm_num)
  have h2 : (0 : ℝ) ≤ clipR (3 * clipR t 0 1 - 1) 0 1 ∧ clipR (3 * clipR t 0 1 - 1) 0 1 ≤ 1 :=
    clipR_mem (by norm_num)
  have h3 : (0 : ℝ) ≤ clipR (3 * clipR t 0 1 - 2) 0 1 ∧ clipR (3 * clipR t 0 1 - 2) 0 1 ≤ 1 :=
    clipR_mem (by norm_num)
  exact ⟨by show 0 ≤ 255 * clipR (3 * clipR t 0 1) 0 1; nlinarith [h1.1],
    by show 255 * clipR (3 * clipR t 0 1) 0 1 ≤ 255; nlinarith [h1.2],
    by show 0 ≤ 255 * clipR (3 * clipR t 0 1 - 1) 0 1; nlinarith [h2.1],
    by show 255 * clipR (3 * clipR t 0 1 - 1) 0 1 ≤ 255; nlinarith [h2.2],
    by show 0 ≤ 255 * clipR (3 * clipR t 0 1 - 2) 0 1; nlinarith [h3.1],
    by show 255 * clipR (3 * clipR t 0 1 - 2) 0 1 ≤ 255; nlinarith [h3.2]⟩

theorem oceanStops_inRange : ∀ s ∈ oceanStops, inRange s.2 := by
  intro s hs
  simp only [oceanStops, List.mem_cons, List.not_mem_nil, or_false] at hs
  rcases hs with rfl | rfl | rfl | rfl | rfl | rfl <;>
    exact ⟨by norm_num, by norm_num, by norm_num, by norm_num, by norm_num, by norm_num⟩

theorem deepSeaStops_inRange : ∀ s ∈ deepSeaStops, inRange s.2 := by
  intro s hs
  simp only [deepSeaStops, List.mem_cons, List.not_mem_nil, or_false] at hs
  rcases hs with rfl | rfl | rfl | rfl | rfl <;>
    exact ⟨by norm_num, by norm_num, by norm_num, by norm_num, by norm_num, by norm_num⟩

theorem etherealStops_inRange : ∀ s ∈ etherealStops, inRange s.2 := by
  intro s hs
  simp only [etherealStops, List.mem_cons, List.not_mem_nil, or_false] at hs
  rcases hs with rfl | rfl | rfl | rfl | rfl <;>
    exact ⟨by norm_num, by norm_num, by norm_num, by norm_num, by norm_num, by norm_num⟩

theorem mathematicalStops_inRange : ∀ s ∈ mathematicalStops, inRange s.2 := by
  intro s hs
  simp only [mathematicalStops, List.mem_cons, List.not_mem_nil, or_false] at hs
  rcases hs with rfl | rfl | rfl | rfl | rfl <;>
    exact ⟨by norm_num, by norm_num, by norm_num, by norm_num, by norm_num, by norm_num⟩

theorem abstractStops_inRange : ∀ s ∈ abstractStops, inRange s.2 := by
  intro s hs
  simp only [abstractStops, List.mem_cons, List.not_mem_nil, or_false] at hs
  rcases hs with rfl | rfl | rfl | rfl | rfl <;>
    exact ⟨by norm_num, by norm_num, by norm_num, by norm_num, by norm_num, by norm_num⟩

theorem warmStops_inRange : ∀ s ∈ warmStops, inRange s.2 := by
  intro s hs
  simp only [warmStops, List.mem_cons, List.not_mem_nil, or_false] at hs
  rcases hs with rfl | rfl | rfl | rfl | rfl <;>
    exact ⟨by norm_num, by norm_num, by norm_num, by norm_num, by norm_num, by norm_num⟩

theorem createCustomPalette_inRange (m a : Rgb) (t : ℝ) :
    inRange (createCustomPalette m a t) := by
  unfold createCustomPalette
  exact ⟨(clipR_mem (by norm_num)).1, (clipR_mem (by norm_num)).2,
    (clipR_mem (by norm_num)).1, (clipR_mem (by norm_num)).2,
    (clipR_mem (by norm_num)).1, (clipR_mem (by norm_num)).2⟩

theorem namedPalette_inRange (n : String) (t : ℝ) : inRange (namedPalette n t) := by
  unfold namedPalette
  split
  · exact paletteFire_inRange t
  split
  · exact npInterp3_inRange oceanStops (clipR t 0 1) oceanStops_inRange
  split
  · exact npInterp3_inRange deepSeaStops (clipR t 0 1) deepSeaStops_inRange
  split
  · exact npInterp3_inRange etherealStops (clipR t 0 1) etherealStops_inRange
  split
  · exact npInterp3_inRange mathematicalStops (clipR t 0 1) mathematicalStops_inRange
  split
  · exact npInterp3_inRange abstractStops (clipR t 0 1) abstractStops_inRange
  split
  · exact npInterp3_inRange warmStops (clipR t 0 1) warmStops_inRange
  exact paletteFire_inRange t

theorem paletteApply_inRange (name : String) (cm ca : Option Rgb) (t : ℝ) :
    inRange (paletteApply name cm ca t) := by
  cases cm with
  | none =>
    show inRange (namedPalette name t)
    exact namedPalette_inRange name t
  | some m =>
    cases ca with
    | none =>
      show inRange (namedPalette name t)
      exact namedPalette_inRange name t
    | some a =>
      show inRange (if name = "custom" then createCustomPalette m a t else namedPalette name t)
      split
      · exact createCustomPalette_inRange m a t
      · exact namedPalette_inRange name t

theorem interiorColor_inRange (name : String) (cm : Option Rgb)
    (hcm : ∀ m, cm = some m → inRange m) : inRange (interiorColor name cm) := by
  unfold interiorColor
  split
  · cases cm with
    | none =>
      exact ⟨le_refl 0, by norm_num, le_refl 0, by norm_num, le_refl 0, by norm_num⟩
    | some m =>
      obtain ⟨m1, m2, m3, m4, m5, m6⟩ := hcm m rfl
      exact ⟨le_max_left 0 _, max_le (by norm_num) (by linarith),
        le_max_left 0 _, max_le (by norm_num) (by linarith),
        le_max_left 0 _, max_le (by norm_num) (by linarith)⟩
  · unfold interiorTable
    split
    · exact ⟨le_refl 0, by norm_num, le_refl 0, by norm_num, le_refl 0, by norm_num⟩
    split
    · exact ⟨by norm_num, by norm_num, by norm_num, by norm_num, by norm_num, by norm_num⟩
    split
    · exact ⟨by norm_num, by norm_num, by norm_num, by norm_num, by norm_num, by norm_num⟩
    split
    · exact ⟨by norm_num, by norm_num, by norm_num, by norm_num, by norm_num, by norm_num⟩
    split
    · exact ⟨by norm_num, by norm_num, by norm_num, by norm_num, by norm_num, by norm_num⟩
    split
    · exact ⟨by norm_num, by norm_num, by norm_num, by norm_num, by norm_num, by norm_num⟩
    split
    · exact ⟨by norm_num, by norm_num, by norm_num, by norm_num, by norm_num, by norm_num⟩
    exact ⟨le_refl 0, by norm_num, le_refl 0, by norm_num, le_refl 0, by norm_num⟩

theorem stretchParams_pos {l : List ℝ} (hl : l ≠ []) :
    0 < (stretchParams l).2 - (stretchParams l).1 := by
  unfold stretchParams
  split
  · show 0 < listMax l + 1e-6 - listMin l
    obtain ⟨x, hx⟩ := List.exists_mem_of_ne_nil l hl
    have h1 := listMin_le hx
    have h2 := le_listMax hx
    norm_num
    linarith
  · rename_i h
    show 0 < npPercentile l 98 - npPercentile l 2
    have := not_lt.mp h
    norm_num at this ⊢
    linarith

/-- C8.  Palette mapper totality and range: for every iteration field
(including fields where all escaped pixels share one `nu` value and fields
with no escaped pixel), every palette name, any optional custom colors with
channels in `[0,255]` and any gamma, the stretch divisor is strictly positive
whenever escaped pixels exist (no division by zero), and every channel of
every output pixel lies in `[0, 255]`. -/
theorem palette_mapper_range (name : String) (cm ca : Option Rgb) (g : ℝ)
    (field : List (ℝ × Bool)) (hcm : ∀ m, cm = some m → inRange m) :
    (∀ l : List ℝ, l ≠ [] → 0 < (stretchParams l).2 - (stretchParams l).1) ∧
    ∀ c ∈ juliaColor name cm ca g field, inRange c := by
  refine ⟨fun l hl => stretchParams_pos hl, ?_⟩
  intro c hc
  unfold juliaColor at hc
  rcases List.mem_map.mp hc with ⟨pt, hpt, rfl⟩
  by_cases hal : pt.1.2 = true
  · rw [if_pos hal]
    exact interiorColor_inRange name cm hcm
  · rw [if_neg hal]
    exact paletteApply_inRange name cm ca _

/-- Witness for C8: the ocean palette on a two-pixel field with one escaped
and one alive pixel, no custom colors, gamma 1. -/
theorem palette_mapper_range_witness :
    (∀ l : List ℝ, l ≠ [] → 0 < (stretchParams l).2 - (stretchParams l).1) ∧
    ∀ c ∈ juliaColor "ocean" none none 1 [((5 : ℝ), false), ((0 : ℝ), true)], inRange c :=
  palette_mapper_range "ocean" none none 1 [((5 : ℝ), false), ((0 : ℝ), true)]
    (fun _ hm => Option.noConfusion hm)

theorem zip_alive_map (name : String) (cm ca : Option Rgb) (g : ℝ) :
    ∀ (l : List (ℝ × Bool)) (ts : List ℝ), (∀ pr ∈ l, pr.2 = true) →
    (l.zip ts).map (fun pt => if pt.1.2 then interiorColor name cm
        else paletteApply name cm ca (contrastCurve pt.2 ^ g)) =
      (l.zip ts).map (fun _ => interiorColor name cm) := by
  intro l
  induction l with
  | nil => intro ts _; rfl
  | cons pr tl ih =>
    intro ts hal
    cases ts with
    | nil => rfl
    | cons t ts2 =>
      simp only [List.zip_cons_cons, List.map_cons]
      rw [if_pos (hal pr (List.mem_cons_self pr tl)),
        ih ts2 (fun q hq => hal q (List.mem_cons_of_mem pr hq))]

/-- C10.  All-interior edge case: when every pixel of the field is alive, the
normalized field is identically zero (the stretch branch never fires) and
every output pixel equals the interior color of the selected palette, i.e.
the frame is uniform, with no division by zero involved. -/
theorem julia_all_interior (name : String) (cm ca : Option Rgb) (g : ℝ)
    (field : List (ℝ × Bool)) (halive : ∀ pr ∈ field, pr.2 = true) :
    (∀ t ∈ juliaTField field, t = 0) ∧
    juliaColor name cm ca g field =
      (field.zip (juliaTField field)).map (fun _ => interiorColor name cm) := by
  constructor
  · intro t ht
    unfold juliaTField at ht
    rcases List.mem_map.mp ht with ⟨pr, hpr, rfl⟩
    rw [if_pos (halive pr hpr)]
  · unfold juliaColor
    exact zip_alive_map name cm ca g field (juliaTField field) halive

/-- Witness for C10: a one-pixel all-alive field under the fire palette. -/
theorem julia_all_interior_witness :
    (∀ t ∈ juliaTField [((0.3 : ℝ), true)], t = 0) ∧
    juliaColor "fire" none none 1 [((0.3 : ℝ), true)] =
      (([((0.3 : ℝ), true)] : List (ℝ × Bool)).zip
        (juliaTField [((0.3 : ℝ), true)])).map (fun _ => interiorColor "fire" none) :=
  julia_all_interior "fire" none none 1 [((0.3 : ℝ), true)]
    (fun pr hpr => by rcases List.mem_singleton.mp hpr with rfl; rfl)

end
